import Mathlib

/-!
Verification of the rolling-statistics engine of the `pong` latency
dashboard (`src/stats.rs`, with the probe retry loop of `src/main.rs` and
the snapshot handoff consumed by `src/ui.rs`).

Modelling conventions:

* Latency samples (Rust `f64`) are modelled as exact rationals `ℚ`.
  Comparison-based computations (min, max, sorting, percentile selection)
  depend only on the order of the values; Welford's accumulator is
  modelled by the same recurrence over `ℚ`.
* `f64::INFINITY` and `f64::NEG_INFINITY` occur only as the initial (and
  scan-starting) values of the running minimum and maximum; they are
  modelled by `⊤ : WithTop ℚ` and `⊥ : WithBot ℚ`, with real samples
  embedded by coercion.  The `f64` comparisons against the infinities
  agree with the `WithTop`/`WithBot` order.
* `usize`/`u64` counters are `ℕ`; `x & (CAPACITY - 1)` is written
  `x % 128`, which is equal because `CAPACITY = 128` is a power of two,
  and `u64::saturating_add(1)` is `min (n + 1) U64MAX`.
* `percentile_index` computes `(len as f64 * percentile).ceil()` in the
  source.  The model uses the exact rational ceiling: for the two
  percentiles the program uses (`0.95` and `0.99`, whose nearest `f64`
  values are strictly below the rationals) and every `len ≤ CAPACITY`,
  the `f64` product is within 13 units in the last place of the exact
  product, while a non-integral exact product is at least `1/100` away
  from any integer and an integral exact product rounds to itself, so
  the `f64` ceiling equals the exact rational ceiling.
* `values[idx]` in `recompute_percentiles` (which panics when out of
  bounds) is modelled as `List.getD values idx 0`; the bounds theorem for
  `percentile_index` shows the default is never taken.
-/

namespace Pong

/-- `CAPACITY` from `stats.rs`. -/
def CAPACITY : ℕ := 128

/-- `u64::MAX`, the saturation bound of `u64::saturating_add`. -/
def U64MAX : ℕ := 2 ^ 64 - 1

/-- Ring-buffer index arithmetic: `i & (CAPACITY - 1)` in the source. -/
def bidx (i : ℕ) : Fin 128 := ⟨i % 128, Nat.mod_lt _ (by norm_num)⟩

/-- The state of `PingStats` (`stats.rs`).  The `region` field is omitted:
it is never read or written by the statistics engine. -/
structure PingStats where
  buffer : Fin 128 → ℚ
  len : ℕ
  head : ℕ
  welford_count : ℕ
  welford_mean : ℚ
  welford_m2 : ℚ
  running_min : WithTop ℚ
  running_max : WithBot ℚ
  min_max_valid : Bool
  last_value : Option ℚ
  cache_p95 : ℚ
  cache_p99 : ℚ
  percentile_valid : Bool
  total_samples : ℕ

/-- `PingStats::new`. -/
def PingStats.new : PingStats where
  buffer := fun _ => 0
  len := 0
  head := 0
  welford_count := 0
  welford_mean := 0
  welford_m2 := 0
  running_min := ⊤
  running_max := ⊥
  min_max_valid := true
  last_value := none
  cache_p95 := 0
  cache_p99 := 0
  percentile_valid := false
  total_samples := 0

/-- `PingStats::add_sample`. -/
def PingStats.add_sample (s : PingStats) (latency_ms : Option ℚ) : PingStats :=
  match latency_ms with
  | none => s
  | some value =>
    let s1 : PingStats :=
      if s.len = CAPACITY then
        let evicted := s.buffer (bidx s.head)
        if (evicted : WithTop ℚ) ≤ s.running_min ∨ s.running_max ≤ (evicted : WithBot ℚ) then
          { s with min_max_valid := false }
        else s
      else s
    let count1 := min (s1.welford_count + 1) U64MAX
    let delta := value - s1.welford_mean
    let mean1 := s1.welford_mean + delta / (count1 : ℚ)
    let delta2 := value - mean1
    { s1 with
      buffer := Function.update s1.buffer (bidx s1.head) value
      head := (s1.head + 1) % 128
      len := if s1.len < CAPACITY then s1.len + 1 else s1.len
      welford_count := count1
      welford_mean := mean1
      welford_m2 := s1.welford_m2 + delta * delta2
      running_min := if (value : WithTop ℚ) < s1.running_min then (value : WithTop ℚ) else s1.running_min
      running_max := if s1.running_max < (value : WithBot ℚ) then (value : WithBot ℚ) else s1.running_max
      last_value := some value
      percentile_valid := false
      total_samples := min (s1.total_samples + 1) U64MAX }

/-- `PingStats::recompute_min_max`. -/
def PingStats.recompute_min_max (s : PingStats) : PingStats :=
  let start := (s.head + CAPACITY - s.len) % 128
  let scan :=
    (List.range s.len).foldl
      (fun (mm : WithTop ℚ × WithBot ℚ) i =>
        let val := s.buffer (bidx (start + i))
        (if (val : WithTop ℚ) < mm.1 then (val : WithTop ℚ) else mm.1,
         if mm.2 < (val : WithBot ℚ) then (val : WithBot ℚ) else mm.2))
      (⊤, ⊥)
  { s with running_min := scan.1, running_max := scan.2, min_max_valid := true }

/-- `percentile_index` (`stats.rs`); the `f64` rank computation is modelled
by the exact rational ceiling, `rank as usize` by `Int.toNat`. -/
def percentile_index (len : ℕ) (percentile : ℚ) : ℕ :=
  if len = 0 then 0
  else
    let rank : ℤ := ⌈(len : ℚ) * percentile⌉
    let raw_index := rank.toNat
    let idx := if rank ≤ 1 then 0 else raw_index - 1
    if len ≤ idx then len - 1 else idx

/-- The chronological (oldest-to-newest) contents of the ring buffer, read
exactly as the copy loops of `recompute_min_max` and
`recompute_percentiles` read it. -/
def PingStats.windowList (s : PingStats) : List ℚ :=
  (List.range s.len).map
    (fun i => s.buffer (bidx ((s.head + CAPACITY - s.len) % 128 + i)))

/-- `PingStats::recompute_percentiles`: copy the window, sort ascending
(the `sort_by` with `partial_cmp` is a total-order sort on the modelled
values), and select both percentiles. -/
def PingStats.recompute_percentiles (s : PingStats) : PingStats :=
  if s.len = 0 then s
  else
    let values := List.insertionSort (· ≤ ·) s.windowList
    { s with
      cache_p95 := values.getD (percentile_index s.len (95 / 100)) 0
      cache_p99 := values.getD (percentile_index s.len (99 / 100)) 0
      percentile_valid := true }

/-- `PingStats::min`: the returned value together with the updated state. -/
def PingStats.min_call (s : PingStats) : Option (WithTop ℚ) × PingStats :=
  if s.len = 0 then (none, s)
  else
    let s1 := if s.min_max_valid then s else s.recompute_min_max
    (some s1.running_min, s1)

/-- `PingStats::max`: the returned value together with the updated state. -/
def PingStats.max_call (s : PingStats) : Option (WithBot ℚ) × PingStats :=
  if s.len = 0 then (none, s)
  else
    let s1 := if s.min_max_valid then s else s.recompute_min_max
    (some s1.running_max, s1)

/-- `PingStats::p95`: the returned value together with the updated state. -/
def PingStats.p95_call (s : PingStats) : Option ℚ × PingStats :=
  if s.len = 0 then (none, s)
  else
    let s1 := if s.percentile_valid then s else s.recompute_percentiles
    (some s1.cache_p95, s1)

/-- `PingStats::p99`: the returned value together with the updated state. -/
def PingStats.p99_call (s : PingStats) : Option ℚ × PingStats :=
  if s.len = 0 then (none, s)
  else
    let s1 := if s.percentile_valid then s else s.recompute_percentiles
    (some s1.cache_p99, s1)

/-- `PingStats::avg`. -/
def PingStats.avg (s : PingStats) : Option ℚ :=
  if s.welford_count = 0 then none else some s.welford_mean

/-- The radicand `m2 / (count - 1)` that `PingStats::stddev` passes to
`f64::sqrt`; the Rust function returns `None` exactly when this is `none`
and otherwise `Some` of the square root of this value. -/
def PingStats.stddev_radicand (s : PingStats) : Option ℚ :=
  if s.welford_count < 2 then none
  else some (s.welford_m2 / ((s.welford_count - 1 : ℕ) : ℚ))

/-- `PingStats::last`. -/
def PingStats.last (s : PingStats) : Option ℚ := s.last_value

/-- One externally visible operation on a `PingStats` value: a `record`
(an `add_sample` with a successful or failed probe) or one of the four
lazily recomputing getters. -/
inductive Op where
  | record : Option ℚ → Op
  | getMin : Op
  | getMax : Op
  | getP95 : Op
  | getP99 : Op

/-- Apply one operation to the state. -/
def stepOp (s : PingStats) : Op → PingStats
  | .record x => s.add_sample x
  | .getMin => s.min_call.2
  | .getMax => s.max_call.2
  | .getP95 => s.p95_call.2
  | .getP99 => s.p99_call.2

/-- Run a sequence of operations from the freshly constructed state. -/
def runOps (ops : List Op) : PingStats :=
  ops.foldl stepOp PingStats.new

/-- The successfully recorded values of an operation sequence, in order. -/
def recorded (ops : List Op) : List ℚ :=
  ops.filterMap (fun o =>
    match o with
    | .record (some v) => some v
    | _ => none)

/-- The most recent `min (length, CAPACITY)` elements of a history. -/
def lastWindow (vs : List ℚ) : List ℚ :=
  vs.drop (vs.length - CAPACITY)

/-- The inner retry loop of one probe cycle of `fetch_latency_for_region`
(`main.rs`): `probe i` is the outcome of the i-th `ping_region` attempt.
Returns the number of attempts performed, the list of sleeps (in
milliseconds) performed between failed attempts, and the latency finally
sent on the channel.  The loop starts with `retries = 3` and breaks when
an attempt succeeds or `retries` has reached zero at the check. -/
def retryLoop (probe : ℕ → Option ℚ) : ℕ → ℕ → ℕ × List ℕ × Option ℚ
  | 0, attempt => (attempt + 1, [], probe attempt)
  | retries + 1, attempt =>
    match probe attempt with
    | some v => (attempt + 1, [], some v)
    | none =>
      let rest := retryLoop probe retries (attempt + 1)
      (rest.1, 500 :: rest.2.1, rest.2.2)

/-- One probe cycle: `let mut retries = 3; loop { ... }` in `main.rs`. -/
def fetchCycle (probe : ℕ → Option ℚ) : ℕ × List ℕ × Option ℚ :=
  retryLoop probe 3 0

/-- Modelled from the spec: `StatsSnapshot` (spec §3), the immutable,
fully-owned copy of all derived statistics for one endpoint, whose Rust
definition (in the crate root alongside `SharedStat`) is not among the
files under `src/`; field names follow the reader in `ui.rs`.  The region
identifier is modelled as a natural number. -/
structure StatsSnapshot where
  region : ℕ
  last : Option ℚ
  min : Option ℚ
  max : Option ℚ
  avg : Option ℚ
  stddev : Option ℚ
  p95 : Option ℚ
  p99 : Option ℚ
  samples : ℕ
deriving DecidableEq

/-- The all-absent snapshot returned before the first publish. -/
def allAbsent (r : ℕ) : StatsSnapshot :=
  ⟨r, none, none, none, none, none, none, none, 0⟩

/-- The structural invariant tying a `PingStats` state to the history of
successfully recorded values: the ring buffer holds the most recent
`min (length, CAPACITY)` values in chronological order, and each cache,
when flagged valid, holds the statistic of the current window. -/
def statsInv (vs : List ℚ) (s : PingStats) : Prop :=
  s.len = min vs.length CAPACITY ∧
  s.head = vs.length % 128 ∧
  s.windowList = lastWindow vs ∧
  (s.min_max_valid = true →
    s.running_min = s.windowList.minimum ∧ s.running_max = s.windowList.maximum) ∧
  (s.percentile_valid = true →
    s.cache_p95 = (List.insertionSort (· ≤ ·) s.windowList).getD
      (percentile_index s.len (95 / 100)) 0 ∧
    s.cache_p99 = (List.insertionSort (· ≤ ·) s.windowList).getD
      (percentile_index s.len (99 / 100)) 0)

/-- The Welford accumulator invariant: the count saturates at `u64::MAX`,
and below saturation the mean and `m2` have their closed forms over the
entire recorded history. -/
def welfordInv (vs : List ℚ) (s : PingStats) : Prop :=
  s.welford_count = min vs.length U64MAX ∧
  (vs.length ≤ U64MAX →
    s.welford_mean = vs.sum / (vs.length : ℚ) ∧
    s.welford_m2 = (vs.map (fun x => x ^ 2)).sum - vs.sum ^ 2 / (vs.length : ℚ))

/-- Modelled from the spec: the state of a `SnapshotStore` (`SharedStat`,
spec §4.3, not among the files under `src/`) after a sequence of
publishes: each `publish` atomically replaces the whole previously
published value. -/
def storeAfter (pubs : List StatsSnapshot) : Option StatsSnapshot :=
  pubs.foldl (fun _ snap => some snap) none

/-- Modelled from the spec: `SnapshotStore.read` (spec §4.3) returns the
most recently published whole value, or the all-absent snapshot if none
has ever been published. -/
def readStore (r : ℕ) (pubs : List StatsSnapshot) : StatsSnapshot :=
  (storeAfter pubs).getD (allAbsent r)

/-! ### Generic helper lemmas -/

theorem ite_lt_eq_min {α : Type} [LinearOrder α] (a b : α) :
    (if b < a then b else a) = min a b := by
  rcases lt_or_ge b a with h | h
  · simp [h, min_eq_right h.le]
  · simp [not_lt.mpr h, min_eq_left h]

theorem ite_lt_eq_max {α : Type} [LinearOrder α] (a b : α) :
    (if a < b then b else a) = max a b := by
  rcases lt_or_ge a b with h | h
  · simp [h, max_eq_right h.le]
  · simp [not_lt.mpr h, max_eq_left h]

/-! ### Unfolding lemmas for `add_sample` -/

theorem PingStats.add_sample_none (s : PingStats) : s.add_sample none = s := rfl

theorem PingStats.add_sample_some (s : PingStats) (v : ℚ) :
    s.add_sample (some v) =
      { buffer := Function.update s.buffer (bidx s.head) v
        len := if s.len < CAPACITY then s.len + 1 else s.len
        head := (s.head + 1) % 128
        welford_count := min (s.welford_count + 1) U64MAX
        welford_mean := s.welford_mean +
          (v - s.welford_mean) / ((min (s.welford_count + 1) U64MAX : ℕ) : ℚ)
        welford_m2 := s.welford_m2 + (v - s.welford_mean) *
          (v - (s.welford_mean +
            (v - s.welford_mean) / ((min (s.welford_count + 1) U64MAX : ℕ) : ℚ)))
        running_min := min s.running_min (v : WithTop ℚ)
        running_max := max s.running_max (v : WithBot ℚ)
        min_max_valid :=
          if s.len = CAPACITY ∧
              ((s.buffer (bidx s.head) : WithTop ℚ) ≤ s.running_min ∨
                s.running_max ≤ (s.buffer (bidx s.head) : WithBot ℚ)) then
            false
          else s.min_max_valid
        last_value := some v
        cache_p95 := s.cache_p95
        cache_p99 := s.cache_p99
        percentile_valid := false
        total_samples := min (s.total_samples + 1) U64MAX } := by
  by_cases h1 : s.len = CAPACITY
  · by_cases h2 : (s.buffer (bidx s.head) : WithTop ℚ) ≤ s.running_min ∨
        s.running_max ≤ (s.buffer (bidx s.head) : WithBot ℚ)
    · simp [PingStats.add_sample, h1, h2, PingStats.mk.injEq,
        ite_lt_eq_min, ite_lt_eq_max]
    · simp [PingStats.add_sample, h1, h2, PingStats.mk.injEq,
        ite_lt_eq_min, ite_lt_eq_max]
  · simp [PingStats.add_sample, h1, PingStats.mk.injEq,
      ite_lt_eq_min, ite_lt_eq_max]

/-! ### C10: percentile index bounds -/

/-- C10: for every buffer length `len` with `1 ≤ len ≤ CAPACITY` and each
percentile the program uses, `percentile_index len p` is strictly less
than `len`, so the sorted-scratch indexing done by
`recompute_percentiles` is always in bounds and `p95`/`p99` never panic
on a non-empty buffer. -/
theorem c10_percentile_index_in_bounds (len : ℕ) (p : ℚ)
    (h1 : 1 ≤ len) (h2 : len ≤ CAPACITY) (hp : p = 95 / 100 ∨ p = 99 / 100) :
    percentile_index len p < len ∧
    ∀ w : List ℚ, w.length = len →
      percentile_index len p < (List.insertionSort (· ≤ ·) w).length := by
  have hlen : ¬len = 0 := by omega
  have hb : percentile_index len p < len := by
    unfold percentile_index
    rw [if_neg hlen]
    dsimp only
    split_ifs <;> omega
  exact ⟨hb, fun w hw => by rwa [List.length_insertionSort, hw]⟩

/-- Witness for C10 at `len = 100`, `p = 0.95`. -/
theorem c10_witness :
    (1 ≤ 100 ∧ 100 ≤ CAPACITY ∧
      ((95 / 100 : ℚ) = 95 / 100 ∨ (95 / 100 : ℚ) = 99 / 100)) ∧
    (percentile_index 100 (95 / 100) < 100 ∧
      ∀ w : List ℚ, w.length = 100 →
        percentile_index 100 (95 / 100) < (List.insertionSort (· ≤ ·) w).length) :=
  ⟨⟨by decide, by decide, Or.inl rfl⟩,
    c10_percentile_index_in_bounds 100 (95 / 100) (by decide) (by decide) (Or.inl rfl)⟩

/-! ### C9: the probe retry loop -/

/-- C9 counterexample: with every attempt failing, one probe cycle
performs 4 measurements (the initial attempt plus 3 retries), so the
claim that at most 3 measurements are attempted is false. -/
theorem c9_counterexample :
    (fetchCycle (fun _ => none)).1 = 4 ∧ ¬(fetchCycle (fun _ => none)).1 ≤ 3 := by
  decide

/-- C9 (amended): on each probe cycle the worker attempts at most 4
measurements (one initial attempt plus up to 3 retries), sleeps a fixed
500 ms delay between failed attempts (linear retry, not exponential
backoff), and forwards the last attempt's outcome for recording — in
particular an absent sample, not an error, when every attempt fails. -/
theorem c9_retry_cycle (probe : ℕ → Option ℚ) :
    1 ≤ (fetchCycle probe).1 ∧ (fetchCycle probe).1 ≤ 4 ∧
    (fetchCycle probe).2.1 = List.replicate ((fetchCycle probe).1 - 1) 500 ∧
    (fetchCycle probe).2.2 = probe ((fetchCycle probe).1 - 1) ∧
    ((∀ i, probe i = none) → (fetchCycle probe).2.2 = none) := by
  unfold fetchCycle
  rcases h0 : probe 0 with _ | v0
  · rcases h1 : probe 1 with _ | v1
    · rcases h2 : probe 2 with _ | v2
      · refine ⟨?_, ?_, ?_, ?_, fun hall => ?_⟩ <;>
          simp [retryLoop, h0, h1, h2, List.replicate]
        exact hall 3
      · refine ⟨?_, ?_, ?_, ?_, fun hall => absurd (hall 2) (by simp [h2])⟩ <;>
          simp [retryLoop, h0, h1, h2, List.replicate]
    · refine ⟨?_, ?_, ?_, ?_, fun hall => absurd (hall 1) (by simp [h1])⟩ <;>
        simp [retryLoop, h0, h1, List.replicate]
  · refine ⟨?_, ?_, ?_, ?_, fun hall => absurd (hall 0) (by simp [h0])⟩ <;>
      simp [retryLoop, h0, List.replicate]

/-- Witness for C9's amended theorem at the all-failing prober. -/
theorem c9_witness :
    (∀ i : ℕ, (fun _ : ℕ => (none : Option ℚ)) i = none) ∧
    (fetchCycle (fun _ : ℕ => (none : Option ℚ))).2.2 = none :=
  ⟨fun _ => rfl,
    (c9_retry_cycle (fun _ => none)).2.2.2.2 (fun _ => rfl)⟩

/-! ### C4: the publish/read snapshot protocol (spec-modelled) -/

theorem storeAfter_cons_of_ne_nil (p : StatsSnapshot) (l : List StatsSnapshot)
    (h : l ≠ []) : storeAfter (p :: l) = storeAfter l := by
  cases l with
  | nil => exact absurd rfl h
  | cons x xs => rfl

theorem storeAfter_concat (l : List StatsSnapshot) (a : StatsSnapshot) :
    storeAfter (l ++ [a]) = some a := by
  simp [storeAfter, List.foldl_append]

theorem storeAfter_take (pubs : List StatsSnapshot) (k : ℕ) (d : StatsSnapshot)
    (hk : 0 < k) (hle : k ≤ pubs.length) :
    storeAfter (pubs.take k) = some (pubs.getD (k - 1) d) := by
  induction pubs generalizing k with
  | nil => simp at hle; omega
  | cons p ps ih =>
    rcases k with _ | k'
    · omega
    · rcases Nat.eq_zero_or_pos k' with h | h
      · subst h
        rfl
      · have hle' : k' ≤ ps.length := by
          simp at hle
          omega
        have hne : ps.take k' ≠ [] := by
          apply List.ne_nil_of_length_pos
          simp [List.length_take]
          omega
        rw [List.take_succ_cons, storeAfter_cons_of_ne_nil p _ hne, ih k' h hle']
        have hk1 : k' + 1 - 1 = (k' - 1) + 1 := by omega
        rw [hk1, List.getD_cons_succ]

/-- C4 (spec-modelled): a read concurrent with a sequence of atomic
whole-value publishes sees, after `k` publishes, the all-absent snapshot
when `k = 0` and otherwise exactly the `k`-th published snapshot — in
every case a complete snapshot from a single publish (or the all-absent
one), never a mix of fields from two publishes. -/
theorem c4_snapshot_no_tear (pubs : List StatsSnapshot) (k r : ℕ) :
    readStore r (pubs.take 0) = allAbsent r ∧
    (readStore r (pubs.take k) = allAbsent r ∨ readStore r (pubs.take k) ∈ pubs) ∧
    (0 < k → k ≤ pubs.length →
      readStore r (pubs.take k) = pubs.getD (k - 1) (allAbsent r)) := by
  refine ⟨rfl, ?_, fun hk hle => ?_⟩
  · have aux : readStore r (pubs.take k) = allAbsent r ∨
        readStore r (pubs.take k) ∈ pubs.take k := by
      rcases (pubs.take k).eq_nil_or_concat with h | ⟨l', a, h⟩
      · rw [h]
        exact Or.inl rfl
      · right
        rw [h, readStore, List.concat_eq_append, storeAfter_concat]
        exact List.mem_append_right l' (List.mem_singleton.mpr rfl)
    exact aux.imp id (fun h => List.take_subset k pubs h)
  · rw [readStore, storeAfter_take pubs k (allAbsent r) hk hle]
    rfl

/-- Witness for C4 at a two-element publish sequence read after the first
publish. -/
theorem c4_witness :
    (0 < 1 ∧ 1 ≤ [allAbsent 7, allAbsent 8].length) ∧
    readStore 5 ([allAbsent 7, allAbsent 8].take 1) =
      [allAbsent 7, allAbsent 8].getD 0 (allAbsent 5) :=
  ⟨⟨by decide, by decide⟩,
    (c4_snapshot_no_tear [allAbsent 7, allAbsent 8] 1 5).2.2 (by decide) (by decide)⟩

/-! ### C6: `record(None)` is a no-op -/

theorem runOps_replicate_none (n : ℕ) :
    runOps (List.replicate n (Op.record none)) = PingStats.new := by
  induction n with
  | zero => rfl
  | succ n ih =>
    rw [List.replicate_succ]
    exact ih

/-- C6: `record(None)` leaves the entire state unchanged, and after any
sequence of `record` calls carrying only `None`, every derived statistic
(last, min, max, avg, the stddev radicand, p95, p99) is absent. -/
theorem c6_record_none_no_op (s : PingStats) (n : ℕ) :
    s.add_sample none = s ∧
    (runOps (List.replicate n (Op.record none))).last = none ∧
    (runOps (List.replicate n (Op.record none))).min_call.1 = none ∧
    (runOps (List.replicate n (Op.record none))).max_call.1 = none ∧
    (runOps (List.replicate n (Op.record none))).avg = none ∧
    (runOps (List.replicate n (Op.record none))).stddev_radicand = none ∧
    (runOps (List.replicate n (Op.record none))).p95_call.1 = none ∧
    (runOps (List.replicate n (Op.record none))).p99_call.1 = none := by
  rw [runOps_replicate_none]
  exact ⟨rfl, rfl, rfl, rfl, rfl, rfl, rfl, rfl⟩

/-! ### C7: getters are idempotent -/

theorem PingStats.recompute_min_max_len (s : PingStats) :
    s.recompute_min_max.len = s.len := rfl

theorem PingStats.recompute_min_max_flag (s : PingStats) :
    s.recompute_min_max.min_max_valid = true := rfl

theorem PingStats.recompute_percentiles_len (s : PingStats) :
    s.recompute_percentiles.len = s.len := by
  unfold PingStats.recompute_percentiles
  split <;> rfl

theorem PingStats.recompute_percentiles_flag (s : PingStats) (h : ¬s.len = 0) :
    s.recompute_percentiles.percentile_valid = true := by
  unfold PingStats.recompute_percentiles
  rw [if_neg h]

theorem PingStats.min_call_fix (s : PingStats) : s.min_call.2.min_call = s.min_call := by
  by_cases h : s.len = 0
  · simp [PingStats.min_call, h]
  · by_cases hv : s.min_max_valid
    · simp [PingStats.min_call, h, hv]
    · simp [PingStats.min_call, h, hv, PingStats.recompute_min_max_len,
        PingStats.recompute_min_max_flag]

theorem PingStats.max_call_fix (s : PingStats) : s.max_call.2.max_call = s.max_call := by
  by_cases h : s.len = 0
  · simp [PingStats.max_call, h]
  · by_cases hv : s.min_max_valid
    · simp [PingStats.max_call, h, hv]
    · simp [PingStats.max_call, h, hv, PingStats.recompute_min_max_len,
        PingStats.recompute_min_max_flag]

theorem PingStats.p95_call_fix (s : PingStats) : s.p95_call.2.p95_call = s.p95_call := by
  by_cases h : s.len = 0
  · simp [PingStats.p95_call, h]
  · by_cases hv : s.percentile_valid
    · simp [PingStats.p95_call, h, hv]
    · simp [PingStats.p95_call, h, hv, PingStats.recompute_percentiles_len,
        PingStats.recompute_percentiles_flag]

theorem PingStats.p99_call_fix (s : PingStats) : s.p99_call.2.p99_call = s.p99_call := by
  by_cases h : s.len = 0
  · simp [PingStats.p99_call, h]
  · by_cases hv : s.percentile_valid
    · simp [PingStats.p99_call, h, hv]
    · simp [PingStats.p99_call, h, hv, PingStats.recompute_percentiles_len,
        PingStats.recompute_percentiles_flag]

theorem min_call_iterate (n : ℕ) (s : PingStats) :
    ((fun t : PingStats => t.min_call.2)^[n] s).min_call = s.min_call := by
  induction n generalizing s with
  | zero => rfl
  | succ n ih =>
    rw [Function.iterate_succ_apply, ih, PingStats.min_call_fix]

theorem max_call_iterate (n : ℕ) (s : PingStats) :
    ((fun t : PingStats => t.max_call.2)^[n] s).max_call = s.max_call := by
  induction n generalizing s with
  | zero => rfl
  | succ n ih =>
    rw [Function.iterate_succ_apply, ih, PingStats.max_call_fix]

theorem p95_call_iterate (n : ℕ) (s : PingStats) :
    ((fun t : PingStats => t.p95_call.2)^[n] s).p95_call = s.p95_call := by
  induction n generalizing s with
  | zero => rfl
  | succ n ih =>
    rw [Function.iterate_succ_apply, ih, PingStats.p95_call_fix]

theorem p99_call_iterate (n : ℕ) (s : PingStats) :
    ((fun t : PingStats => t.p99_call.2)^[n] s).p99_call = s.p99_call := by
  induction n generalizing s with
  | zero => rfl
  | succ n ih =>
    rw [Function.iterate_succ_apply, ih, PingStats.p99_call_fix]

/-- C7: from any state, calling `min`, `max`, `p95` or `p99` repeatedly
without an intervening `record` returns the same value on the n-th call
as on the first — the cache does not drift. -/
theorem c7_getters_idempotent (s : PingStats) (n : ℕ) :
    ((fun t : PingStats => t.min_call.2)^[n] s).min_call.1 = s.min_call.1 ∧
    ((fun t : PingStats => t.max_call.2)^[n] s).max_call.1 = s.max_call.1 ∧
    ((fun t : PingStats => t.p95_call.2)^[n] s).p95_call.1 = s.p95_call.1 ∧
    ((fun t : PingStats => t.p99_call.2)^[n] s).p99_call.1 = s.p99_call.1 :=
  ⟨congrArg Prod.fst (min_call_iterate n s), congrArg Prod.fst (max_call_iterate n s),
    congrArg Prod.fst (p95_call_iterate n s), congrArg Prod.fst (p99_call_iterate n s)⟩

/-! ### Welford accumulator: closed forms over the full history -/

theorem recorded_nil : recorded [] = [] := rfl

theorem recorded_cons_some (v : ℚ) (ops : List Op) :
    recorded (Op.record (some v) :: ops) = v :: recorded ops := by
  simp [recorded, List.filterMap_cons]

theorem recorded_cons_none (ops : List Op) :
    recorded (Op.record none :: ops) = recorded ops := by
  simp [recorded, List.filterMap_cons]

theorem recorded_cons_getter (g : Op) (ops : List Op)
    (hg : g = Op.getMin ∨ g = Op.getMax ∨ g = Op.getP95 ∨ g = Op.getP99) :
    recorded (g :: ops) = recorded ops := by
  rcases hg with h | h | h | h <;> subst h <;> simp [recorded, List.filterMap_cons]

theorem min_call_welford_fields (s : PingStats) :
    s.min_call.2.welford_count = s.welford_count ∧
    s.min_call.2.welford_mean = s.welford_mean ∧
    s.min_call.2.welford_m2 = s.welford_m2 := by
  unfold PingStats.min_call
  split_ifs <;> exact ⟨rfl, rfl, rfl⟩

theorem max_call_welford_fields (s : PingStats) :
    s.max_call.2.welford_count = s.welford_count ∧
    s.max_call.2.welford_mean = s.welford_mean ∧
    s.max_call.2.welford_m2 = s.welford_m2 := by
  unfold PingStats.max_call
  split_ifs <;> exact ⟨rfl, rfl, rfl⟩

theorem p95_call_welford_fields (s : PingStats) :
    s.p95_call.2.welford_count = s.welford_count ∧
    s.p95_call.2.welford_mean = s.welford_mean ∧
    s.p95_call.2.welford_m2 = s.welford_m2 := by
  unfold PingStats.p95_call PingStats.recompute_percentiles
  split_ifs <;> exact ⟨rfl, rfl, rfl⟩

theorem p99_call_welford_fields (s : PingStats) :
    s.p99_call.2.welford_count = s.welford_count ∧
    s.p99_call.2.welford_mean = s.welford_mean ∧
    s.p99_call.2.welford_m2 = s.welford_m2 := by
  unfold PingStats.p99_call PingStats.recompute_percentiles
  split_ifs <;> exact ⟨rfl, rfl, rfl⟩

theorem welfordInv_congr (vs : List ℚ) (s s' : PingStats)
    (hc : s'.welford_count = s.welford_count)
    (hm : s'.welford_mean = s.welford_mean)
    (h2 : s'.welford_m2 = s.welford_m2)
    (h : welfordInv vs s) : welfordInv vs s' := by
  rw [welfordInv, hc, hm, h2]
  exact h

theorem u64max_pos : 2 ≤ U64MAX := by norm_num [U64MAX]

theorem welford_step (s : PingStats) (v : ℚ) (vs : List ℚ)
    (h : welfordInv vs s) : welfordInv (vs ++ [v]) (s.add_sample (some v)) := by
  obtain ⟨hc, hval⟩ := h
  have hU : 2 ≤ U64MAX := u64max_pos
  rw [PingStats.add_sample_some]
  constructor
  · show min (s.welford_count + 1) U64MAX = min (vs ++ [v]).length U64MAX
    rw [hc, List.length_append, List.length_singleton]
    omega
  · intro hlen
    rw [List.length_append, List.length_singleton] at hlen
    have hk : vs.length ≤ U64MAX := by omega
    obtain ⟨hm, hm2⟩ := hval hk
    have hcnt : min (s.welford_count + 1) U64MAX = vs.length + 1 := by
      rw [hc]; omega
    rcases Nat.eq_zero_or_pos vs.length with h0 | h0
    · obtain rfl : vs = [] := List.length_eq_zero.mp h0
      simp only [List.nil_append]
      constructor
      · show s.welford_mean + (v - s.welford_mean) /
            ((min (s.welford_count + 1) U64MAX : ℕ) : ℚ) = _
        rw [hcnt]
        rw [hm]
        norm_num
      · show s.welford_m2 + (v - s.welford_mean) * _ = _
        rw [hcnt, hm, hm2]
        norm_num
    · have hkQ : ((vs.length : ℕ) : ℚ) ≠ 0 := by
        exact_mod_cast Nat.pos_iff_ne_zero.mp h0
      have hk1Q : ((vs.length + 1 : ℕ) : ℚ) ≠ 0 := by
        exact_mod_cast Nat.succ_ne_zero vs.length
      constructor
      · show s.welford_mean + (v - s.welford_mean) /
            ((min (s.welford_count + 1) U64MAX : ℕ) : ℚ) = _
        rw [hcnt, hm, List.sum_append, List.sum_singleton,
          List.length_append, List.length_singleton]
        push_cast
        push_cast at hkQ hk1Q
        field_simp
        ring
      · show s.welford_m2 + (v - s.welford_mean) * (v - (s.welford_mean + _)) = _
        rw [hcnt, hm, hm2, List.sum_append, List.sum_singleton,
          List.length_append, List.length_singleton, List.map_append]
        simp only [List.map_cons, List.map_nil, List.sum_append,
          List.sum_cons, List.sum_nil]
        push_cast
        push_cast at hkQ hk1Q
        field_simp
        ring

theorem welford_run_aux (ops : List Op) :
    ∀ (s : PingStats) (vs : List ℚ), welfordInv vs s →
      welfordInv (vs ++ recorded ops) (List.foldl stepOp s ops) := by
  induction ops with
  | nil =>
    intro s vs h
    simpa [recorded_nil] using h
  | cons op rest ih =>
    intro s vs h
    cases op with
    | record x =>
      cases x with
      | none =>
        rw [recorded_cons_none, List.foldl_cons]
        exact ih s vs h
      | some v =>
        rw [recorded_cons_some, List.foldl_cons, List.append_cons]
        exact ih (s.add_sample (some v)) (vs ++ [v]) (welford_step s v vs h)
    | getMin =>
      rw [recorded_cons_getter _ _ (Or.inl rfl), List.foldl_cons]
      exact ih _ vs (welfordInv_congr vs s _ (min_call_welford_fields s).1
        (min_call_welford_fields s).2.1 (min_call_welford_fields s).2.2 h)
    | getMax =>
      rw [recorded_cons_getter _ _ (Or.inr (Or.inl rfl)), List.foldl_cons]
      exact ih _ vs (welfordInv_congr vs s _ (max_call_welford_fields s).1
        (max_call_welford_fields s).2.1 (max_call_welford_fields s).2.2 h)
    | getP95 =>
      rw [recorded_cons_getter _ _ (Or.inr (Or.inr (Or.inl rfl))), List.foldl_cons]
      exact ih _ vs (welfordInv_congr vs s _ (p95_call_welford_fields s).1
        (p95_call_welford_fields s).2.1 (p95_call_welford_fields s).2.2 h)
    | getP99 =>
      rw [recorded_cons_getter _ _ (Or.inr (Or.inr (Or.inr rfl))), List.foldl_cons]
      exact ih _ vs (welfordInv_congr vs s _ (p99_call_welford_fields s).1
        (p99_call_welford_fields s).2.1 (p99_call_welford_fields s).2.2 h)

theorem welford_run (ops : List Op) : welfordInv (recorded ops) (runOps ops) := by
  have h0 : welfordInv [] PingStats.new := by
    constructor
    · simp [PingStats.new, U64MAX]
    · intro _
      simp [PingStats.new]
  simpa using welford_run_aux ops PingStats.new [] h0

/-- C3: `avg` is `None` exactly when no sample was ever recorded, and
otherwise the exact arithmetic mean of every `Some` value ever recorded —
the entire history, not windowed to `CAPACITY` (the `u64` sample counter
must not have saturated). -/
theorem c3_avg_entire_history (ops : List Op) :
    ((runOps ops).avg = none ↔ recorded ops = []) ∧
    ((recorded ops).length ≤ U64MAX → recorded ops ≠ [] →
      (runOps ops).avg = some ((recorded ops).sum / ((recorded ops).length : ℚ))) := by
  obtain ⟨hc, hv⟩ := welford_run ops
  have hU : 2 ≤ U64MAX := u64max_pos
  constructor
  · have hk : (runOps ops).welford_count = 0 ↔ recorded ops = [] := by
      rw [hc, ← List.length_eq_zero]
      omega
    by_cases h : (runOps ops).welford_count = 0
    · simp [PingStats.avg, h, hk.mp h]
    · simp [PingStats.avg, h]
      intro hnil
      exact h (hk.mpr hnil)
  · intro hlen hne
    have hkn : (runOps ops).welford_count = (recorded ops).length := by
      rw [hc]; omega
    have hkne : ¬(runOps ops).welford_count = 0 := by
      rw [hkn]
      simpa [List.length_eq_zero] using hne
    rw [PingStats.avg, if_neg hkne, (hv hlen).1]

/-- Witness for C3 at a three-operation run with two recorded samples. -/
theorem c3_witness :
    ((recorded [Op.record (some 5), Op.getMin, Op.record (some 3)]).length ≤ U64MAX ∧
      recorded [Op.record (some 5), Op.getMin, Op.record (some 3)] ≠ []) ∧
    (((runOps [Op.record (some 5), Op.getMin, Op.record (some 3)]).avg = none ↔
      recorded [Op.record (some 5), Op.getMin, Op.record (some 3)] = []) ∧
    ((runOps [Op.record (some 5), Op.getMin, Op.record (some 3)]).avg =
      some ((recorded [Op.record (some 5), Op.getMin, Op.record (some 3)]).sum /
        (((recorded [Op.record (some 5), Op.getMin, Op.record (some 3)]).length : ℕ) : ℚ)))) :=
  ⟨⟨by decide, by decide⟩,
    ⟨(c3_avg_entire_history _).1,
      (c3_avg_entire_history [Op.record (some 5), Op.getMin, Op.record (some 3)]).2
        (by decide) (by decide)⟩⟩

theorem sum_sq_sub (l : List ℚ) (c : ℚ) :
    (l.map (fun x => (x - c) ^ 2)).sum =
      (l.map (fun x => x ^ 2)).sum - 2 * c * l.sum + l.length * c ^ 2 := by
  induction l with
  | nil => simp
  | cons x xs ih =>
    simp only [List.map_cons, List.sum_cons, ih, List.length_cons]
    push_cast
    ring

/-- C5: the standard deviation is `None` exactly when fewer than 2 samples
were ever recorded, and with at least 2 it is the square root of
`m2 / (count - 1)`, the Bessel-corrected sample variance over the entire
recorded history (the `u64` sample counter must not have saturated). -/
theorem c5_stddev_bessel (ops : List Op) :
    (Option.map (fun q : ℚ => Real.sqrt (q : ℝ)) (runOps ops).stddev_radicand = none ↔
      (recorded ops).length < 2) ∧
    ((recorded ops).length ≤ U64MAX → 2 ≤ (recorded ops).length →
      Option.map (fun q : ℚ => Real.sqrt (q : ℝ)) (runOps ops).stddev_radicand =
        some (Real.sqrt ((((recorded ops).map
          (fun x => (x - (recorded ops).sum / ((recorded ops).length : ℚ)) ^ 2)).sum /
            (((recorded ops).length - 1 : ℕ) : ℚ) : ℚ)))) := by
  obtain ⟨hc, hv⟩ := welford_run ops
  have hU : 2 ≤ U64MAX := u64max_pos
  constructor
  · rw [Option.map_eq_none']
    unfold PingStats.stddev_radicand
    by_cases h : (runOps ops).welford_count < 2
    · simp only [if_pos h, true_iff]
      rw [hc] at h
      omega
    · simp only [if_neg h]
      rw [hc] at h
      constructor
      · intro hs
        exact Option.noConfusion hs
      · intro hlt
        omega
  · intro hlen h2
    have hkn : (runOps ops).welford_count = (recorded ops).length := by
      rw [hc]; omega
    have hnlt : ¬(runOps ops).welford_count < 2 := by omega
    obtain ⟨hm, hm2⟩ := hv hlen
    have hkQ : ((recorded ops).length : ℚ) ≠ 0 := by
      have hp : 0 < (recorded ops).length := by omega
      exact_mod_cast Nat.pos_iff_ne_zero.mp hp
    rw [PingStats.stddev_radicand, if_neg hnlt, Option.map_some']
    have hval : (runOps ops).welford_m2 / (((runOps ops).welford_count - 1 : ℕ) : ℚ) =
        ((recorded ops).map
          (fun x => (x - (recorded ops).sum / ((recorded ops).length : ℚ)) ^ 2)).sum /
            (((recorded ops).length - 1 : ℕ) : ℚ) := by
      rw [hm2, hkn]
      congr 1
      rw [sum_sq_sub]
      field_simp
      ring
    rw [hval]

/-- Witness for C5 at a run recording the two samples 5 and 3. -/
theorem c5_witness :
    ((recorded [Op.record (some 5), Op.record (some 3)]).length ≤ U64MAX ∧
      2 ≤ (recorded [Op.record (some 5), Op.record (some 3)]).length) ∧
    Option.map (fun q : ℚ => Real.sqrt (q : ℝ))
        (runOps [Op.record (some 5), Op.record (some 3)]).stddev_radicand =
      some (Real.sqrt ((((recorded [Op.record (some 5), Op.record (some 3)]).map
        (fun x => (x - (recorded [Op.record (some 5), Op.record (some 3)]).sum /
          (((recorded [Op.record (some 5), Op.record (some 3)]).length : ℕ) : ℚ)) ^ 2)).sum /
            (((recorded [Op.record (some 5), Op.record (some 3)]).length - 1 : ℕ) : ℚ) : ℚ))) :=
  ⟨⟨by decide, by decide⟩,
    (c5_stddev_bessel [Op.record (some 5), Op.record (some 3)]).2 (by decide) (by decide)⟩

/-! ### The ring buffer window -/

theorem CAPACITY_eq : CAPACITY = 128 := rfl

theorem bidx_eq_iff (a b : ℕ) : bidx a = bidx b ↔ a % 128 = b % 128 := by
  simp [bidx, Fin.ext_iff]

theorem bidx_mod (a : ℕ) : bidx (a % 128) = bidx a := by
  rw [bidx_eq_iff]
  omega

theorem windowList_length (s : PingStats) : s.windowList.length = s.len := by
  simp [PingStats.windowList]

theorem lastWindow_length (vs : List ℚ) :
    (lastWindow vs).length = min vs.length CAPACITY := by
  simp [lastWindow, CAPACITY_eq]
  omega

theorem lastWindow_concat (vs : List ℚ) (v : ℚ) :
    lastWindow (vs ++ [v]) =
      (if vs.length < CAPACITY then lastWindow vs else (lastWindow vs).drop 1) ++ [v] := by
  rcases lt_or_ge vs.length CAPACITY with h | h
  · rw [if_pos h]
    rw [CAPACITY_eq] at h
    unfold lastWindow
    rw [CAPACITY_eq]
    have h1 : vs.length + 1 - 128 = 0 := by omega
    have h2 : vs.length - 128 = 0 := by omega
    rw [List.length_append, List.length_singleton, h1, h2, List.drop_zero, List.drop_zero]
  · rw [if_neg (not_lt.mpr h)]
    rw [CAPACITY_eq] at h
    unfold lastWindow
    rw [CAPACITY_eq]
    rw [List.length_append, List.length_singleton,
      List.drop_append_of_le_length (by omega), List.drop_drop]
    rw [show vs.length + 1 - 128 = vs.length - 128 + 1 from by omega]

theorem windowList_add_some (s : PingStats) (v : ℚ) (k : ℕ)
    (hlen : s.len = min k CAPACITY) (hhead : s.head = k % 128) :
    (s.add_sample (some v)).windowList =
      (if k < CAPACITY then s.windowList else s.windowList.drop 1) ++ [v] := by
  rw [CAPACITY_eq] at hlen
  rw [PingStats.add_sample_some]
  rcases lt_or_ge k CAPACITY with hk | hk
  · rw [if_pos hk]
    rw [CAPACITY_eq] at hk
    have hlen' : s.len = k := by omega
    have hhead' : s.head = k := by rw [hhead]; omega
    unfold PingStats.windowList
    dsimp only
    rw [hlen', hhead', CAPACITY_eq]
    rw [if_pos (by omega : k < 128)]
    rw [List.range_succ, List.map_append, List.map_singleton]
    have hlast : bidx (((k + 1) % 128 + 128 - (k + 1)) % 128 + k) = bidx k := by
      rw [bidx_eq_iff]
      omega
    rw [hlast, Function.update_same]
    refine congrArg (fun l => l ++ [v]) ?_
    apply List.map_congr_left
    intro i hi
    have hik : i < k := List.mem_range.mp hi
    have hne : bidx (((k + 1) % 128 + 128 - (k + 1)) % 128 + i) ≠ bidx k := by
      rw [ne_eq, bidx_eq_iff]
      omega
    rw [Function.update_noteq hne]
    apply congrArg
    rw [bidx_eq_iff]
    omega
  · rw [if_neg (not_lt.mpr hk)]
    rw [CAPACITY_eq] at hk
    have hlen' : s.len = 128 := by omega
    unfold PingStats.windowList
    dsimp only
    rw [hlen', hhead, CAPACITY_eq]
    rw [if_neg (by omega : ¬(128 : ℕ) < 128)]
    conv_lhs => rw [show List.range 128 = List.range 127 ++ [127] from by
      rw [← List.range_succ]]
    conv_rhs => rw [show List.range 128 = 0 :: List.map Nat.succ (List.range 127) from
      List.range_succ_eq_map 127]
    rw [List.map_append, List.map_singleton]
    have hlast : bidx (((k % 128 + 1) % 128 + 128 - 128) % 128 + 127) = bidx (k % 128) := by
      rw [bidx_eq_iff]
      omega
    rw [hlast, Function.update_same]
    rw [List.map_cons, List.drop_one, List.tail_cons, List.map_map]
    refine congrArg (fun l => l ++ [v]) ?_
    apply List.map_congr_left
    intro i hi
    have hik : i < 127 := List.mem_range.mp hi
    have hne : bidx (((k % 128 + 1) % 128 + 128 - 128) % 128 + i) ≠ bidx (k % 128) := by
      rw [ne_eq, bidx_eq_iff]
      omega
    simp only [Function.comp_apply, Nat.succ_eq_add_one]
    rw [Function.update_noteq hne]
    apply congrArg
    rw [bidx_eq_iff]
    omega

theorem foldl_minmax (l : List ℚ) :
    l.foldl (fun (mm : WithTop ℚ × WithBot ℚ) (x : ℚ) =>
      (if (x : WithTop ℚ) < mm.1 then (x : WithTop ℚ) else mm.1,
       if mm.2 < (x : WithBot ℚ) then (x : WithBot ℚ) else mm.2)) (⊤, ⊥) =
      (l.minimum, l.maximum) := by
  induction l using List.reverseRecOn with
  | nil => simp [List.minimum_nil, List.maximum_nil]
  | append_singleton l a ih =>
    rw [List.foldl_append, ih, List.foldl_cons, List.foldl_nil,
      List.minimum_concat, List.maximum_concat, ite_lt_eq_min, ite_lt_eq_max]

theorem recompute_min_max_running (s : PingStats) :
    s.recompute_min_max.running_min = s.windowList.minimum ∧
    s.recompute_min_max.running_max = s.windowList.maximum := by
  have h := foldl_minmax s.windowList
  unfold PingStats.windowList at h
  rw [List.foldl_map] at h
  unfold PingStats.recompute_min_max
  exact ⟨congrArg Prod.fst h, congrArg Prod.snd h⟩

theorem recompute_min_max_windowList (s : PingStats) :
    s.recompute_min_max.windowList = s.windowList := rfl

theorem recompute_min_max_head (s : PingStats) :
    s.recompute_min_max.head = s.head := rfl

theorem recompute_min_max_pcache (s : PingStats) :
    s.recompute_min_max.percentile_valid = s.percentile_valid ∧
    s.recompute_min_max.cache_p95 = s.cache_p95 ∧
    s.recompute_min_max.cache_p99 = s.cache_p99 :=
  ⟨rfl, rfl, rfl⟩

theorem recompute_percentiles_windowList (s : PingStats) :
    s.recompute_percentiles.windowList = s.windowList := by
  unfold PingStats.recompute_percentiles
  split <;> rfl

theorem recompute_percentiles_head (s : PingStats) :
    s.recompute_percentiles.head = s.head := by
  unfold PingStats.recompute_percentiles
  split <;> rfl

theorem recompute_percentiles_minmax_fields (s : PingStats) :
    s.recompute_percentiles.running_min = s.running_min ∧
    s.recompute_percentiles.running_max = s.running_max ∧
    s.recompute_percentiles.min_max_valid = s.min_max_valid := by
  unfold PingStats.recompute_percentiles
  split <;> exact ⟨rfl, rfl, rfl⟩

theorem recompute_percentiles_cache (s : PingStats) (h : ¬s.len = 0) :
    s.recompute_percentiles.cache_p95 =
      (List.insertionSort (· ≤ ·) s.windowList).getD
        (percentile_index s.len (95 / 100)) 0 ∧
    s.recompute_percentiles.cache_p99 =
      (List.insertionSort (· ≤ ·) s.windowList).getD
        (percentile_index s.len (99 / 100)) 0 := by
  unfold PingStats.recompute_percentiles
  rw [if_neg h]
  exact ⟨rfl, rfl⟩

theorem windowList_full_cons (s : PingStats) (hfull : s.len = CAPACITY) :
    s.windowList = s.buffer (bidx s.head) :: s.windowList.drop 1 := by
  unfold PingStats.windowList
  rw [hfull, CAPACITY_eq]
  conv_lhs => rw [show List.range 128 = 0 :: List.map Nat.succ (List.range 127) from
    List.range_succ_eq_map 127]
  rw [List.map_cons]
  refine congrArg₂ List.cons ?_ ?_
  · apply congrArg
    rw [bidx_eq_iff]
    omega
  · conv_rhs => rw [show List.range 128 = 0 :: List.map Nat.succ (List.range 127) from
      List.range_succ_eq_map 127]
    rw [List.map_cons, List.drop_one, List.tail_cons]

theorem statsInv_new : statsInv [] PingStats.new := by
  have hwnil : PingStats.new.windowList = [] := by
    simp [PingStats.windowList, PingStats.new]
  refine ⟨by simp [PingStats.new], rfl, ?_, ?_, ?_⟩
  · rw [hwnil]
    rfl
  · intro _
    rw [hwnil]
    exact ⟨List.minimum_nil.symm, List.maximum_nil.symm⟩
  · intro h
    exact absurd h (by decide)

theorem statsInv_record_some (vs : List ℚ) (s : PingStats) (v : ℚ)
    (h : statsInv vs s) : statsInv (vs ++ [v]) (s.add_sample (some v)) := by
  obtain ⟨hlen, hhead, hw, hmm, _hpc⟩ := h
  have hwin := windowList_add_some s v vs.length hlen hhead
  have hlw := lastWindow_concat vs v
  have hrmin' : (s.add_sample (some v)).running_min = min s.running_min (v : WithTop ℚ) := by
    rw [PingStats.add_sample_some]
  have hrmax' : (s.add_sample (some v)).running_max = max s.running_max (v : WithBot ℚ) := by
    rw [PingStats.add_sample_some]
  have hflag : (s.add_sample (some v)).min_max_valid =
      (if s.len = CAPACITY ∧
          ((s.buffer (bidx s.head) : WithTop ℚ) ≤ s.running_min ∨
            s.running_max ≤ (s.buffer (bidx s.head) : WithBot ℚ)) then
        false
      else s.min_max_valid) := by
    rw [PingStats.add_sample_some]
  have hpv : (s.add_sample (some v)).percentile_valid = false := by
    rw [PingStats.add_sample_some]
  refine ⟨?_, ?_, ?_, ?_, ?_⟩
  · have : (s.add_sample (some v)).len = (if s.len < CAPACITY then s.len + 1 else s.len) := by
      rw [PingStats.add_sample_some]
    rw [this, List.length_append, List.length_singleton, hlen, CAPACITY_eq]
    split_ifs <;> omega
  · have : (s.add_sample (some v)).head = (s.head + 1) % 128 := by
      rw [PingStats.add_sample_some]
    rw [this, hhead, List.length_append, List.length_singleton]
    omega
  · rw [hwin, hlw, hw]
  · intro hvalid
    rw [hflag] at hvalid
    rw [hwin, hrmin', hrmax']
    by_cases hcond : s.len = CAPACITY ∧
        ((s.buffer (bidx s.head) : WithTop ℚ) ≤ s.running_min ∨
          s.running_max ≤ (s.buffer (bidx s.head) : WithBot ℚ))
    · rw [if_pos hcond] at hvalid
      exact absurd hvalid (by decide)
    · rw [if_neg hcond] at hvalid
      obtain ⟨hrmin, hrmax⟩ := hmm hvalid
      rcases lt_or_ge vs.length CAPACITY with hsmall | hbig
      · rw [if_pos hsmall]
        constructor
        · rw [List.minimum_concat, hrmin]
        · rw [List.maximum_concat, hrmax]
      · rw [if_neg (not_lt.mpr hbig)]
        have hfull : s.len = CAPACITY := by
          rw [hlen, CAPACITY_eq] at *
          omega
        have hb : ¬((s.buffer (bidx s.head) : WithTop ℚ) ≤ s.running_min ∨
            s.running_max ≤ (s.buffer (bidx s.head) : WithBot ℚ)) :=
          fun hb => hcond ⟨hfull, hb⟩
        push_neg at hb
        obtain ⟨hb1, hb2⟩ := hb
        have hcons := windowList_full_cons s hfull
        constructor
        · have h1 : s.windowList.minimum =
              min ((s.buffer (bidx s.head) : ℚ) : WithTop ℚ) (s.windowList.drop 1).minimum := by
            conv_lhs => rw [hcons]
            exact List.minimum_cons _ _
          have h2 : s.windowList.minimum = (s.windowList.drop 1).minimum := by
            rcases min_choice ((s.buffer (bidx s.head) : ℚ) : WithTop ℚ)
                (s.windowList.drop 1).minimum with hch | hch
            · exfalso
              rw [hrmin, h1, hch] at hb1
              exact lt_irrefl _ hb1
            · rw [h1, hch]
          rw [List.minimum_concat, ← h2, ← hrmin]
        · have h1 : s.windowList.maximum =
              max ((s.buffer (bidx s.head) : ℚ) : WithBot ℚ) (s.windowList.drop 1).maximum := by
            conv_lhs => rw [hcons]
            exact List.maximum_cons _ _
          have h2 : s.windowList.maximum = (s.windowList.drop 1).maximum := by
            rcases max_choice ((s.buffer (bidx s.head) : ℚ) : WithBot ℚ)
                (s.windowList.drop 1).maximum with hch | hch
            · exfalso
              rw [hrmax, h1, hch] at hb2
              exact lt_irrefl _ hb2
            · rw [h1, hch]
          rw [List.maximum_concat, ← h2, ← hrmax]
  · intro hpvv
    rw [hpv] at hpvv
    exact absurd hpvv (by decide)

theorem statsInv_min_call (vs : List ℚ) (s : PingStats)
    (h : statsInv vs s) : statsInv vs s.min_call.2 := by
  obtain ⟨hlen, hhead, hw, hmm, hpc⟩ := h
  unfold PingStats.min_call
  split_ifs with h0 hv
  · exact ⟨hlen, hhead, hw, hmm, hpc⟩
  · exact ⟨hlen, hhead, hw, hmm, hpc⟩
  · show statsInv vs s.recompute_min_max
    refine ⟨hlen, hhead, ?_, ?_, ?_⟩
    · rw [recompute_min_max_windowList]
      exact hw
    · intro _
      rw [recompute_min_max_windowList]
      exact recompute_min_max_running s
    · intro hpvv
      rw [recompute_min_max_windowList]
      rw [(recompute_min_max_pcache s).1] at hpvv
      exact ⟨by rw [(recompute_min_max_pcache s).2.1]; exact (hpc hpvv).1,
        by rw [(recompute_min_max_pcache s).2.2]; exact (hpc hpvv).2⟩

theorem statsInv_max_call (vs : List ℚ) (s : PingStats)
    (h : statsInv vs s) : statsInv vs s.max_call.2 := by
  obtain ⟨hlen, hhead, hw, hmm, hpc⟩ := h
  unfold PingStats.max_call
  split_ifs with h0 hv
  · exact ⟨hlen, hhead, hw, hmm, hpc⟩
  · exact ⟨hlen, hhead, hw, hmm, hpc⟩
  · show statsInv vs s.recompute_min_max
    refine ⟨hlen, hhead, ?_, ?_, ?_⟩
    · rw [recompute_min_max_windowList]
      exact hw
    · intro _
      rw [recompute_min_max_windowList]
      exact recompute_min_max_running s
    · intro hpvv
      rw [recompute_min_max_windowList]
      rw [(recompute_min_max_pcache s).1] at hpvv
      exact ⟨by rw [(recompute_min_max_pcache s).2.1]; exact (hpc hpvv).1,
        by rw [(recompute_min_max_pcache s).2.2]; exact (hpc hpvv).2⟩

theorem statsInv_recompute_percentiles (vs : List ℚ) (s : PingStats)
    (h0 : ¬s.len = 0) (h : statsInv vs s) : statsInv vs s.recompute_percentiles := by
  obtain ⟨hlen, hhead, hw, hmm, _hpc⟩ := h
  refine ⟨?_, ?_, ?_, ?_, ?_⟩
  · rw [PingStats.recompute_percentiles_len]
    exact hlen
  · rw [recompute_percentiles_head]
    exact hhead
  · rw [recompute_percentiles_windowList]
    exact hw
  · intro hvv
    rw [(recompute_percentiles_minmax_fields s).2.2] at hvv
    rw [recompute_percentiles_windowList,
      (recompute_percentiles_minmax_fields s).1,
      (recompute_percentiles_minmax_fields s).2.1]
    exact hmm hvv
  · intro _
    rw [recompute_percentiles_windowList, PingStats.recompute_percentiles_len]
    exact recompute_percentiles_cache s h0

theorem statsInv_p95_call (vs : List ℚ) (s : PingStats)
    (h : statsInv vs s) : statsInv vs s.p95_call.2 := by
  unfold PingStats.p95_call
  split_ifs with h0 hv
  · exact h
  · exact h
  · exact statsInv_recompute_percentiles vs s h0 h

theorem statsInv_p99_call (vs : List ℚ) (s : PingStats)
    (h : statsInv vs s) : statsInv vs s.p99_call.2 := by
  unfold PingStats.p99_call
  split_ifs with h0 hv
  · exact h
  · exact h
  · exact statsInv_recompute_percentiles vs s h0 h

theorem statsInv_run_aux (ops : List Op) :
    ∀ (s : PingStats) (vs : List ℚ), statsInv vs s →
      statsInv (vs ++ recorded ops) (List.foldl stepOp s ops) := by
  induction ops with
  | nil =>
    intro s vs h
    simpa [recorded_nil] using h
  | cons op rest ih =>
    intro s vs h
    cases op with
    | record x =>
      cases x with
      | none =>
        rw [recorded_cons_none, List.foldl_cons]
        exact ih s vs h
      | some v =>
        rw [recorded_cons_some, List.foldl_cons, List.append_cons]
        exact ih (s.add_sample (some v)) (vs ++ [v]) (statsInv_record_some vs s v h)
    | getMin =>
      rw [recorded_cons_getter _ _ (Or.inl rfl), List.foldl_cons]
      exact ih _ vs (statsInv_min_call vs s h)
    | getMax =>
      rw [recorded_cons_getter _ _ (Or.inr (Or.inl rfl)), List.foldl_cons]
      exact ih _ vs (statsInv_max_call vs s h)
    | getP95 =>
      rw [recorded_cons_getter _ _ (Or.inr (Or.inr (Or.inl rfl))), List.foldl_cons]
      exact ih _ vs (statsInv_p95_call vs s h)
    | getP99 =>
      rw [recorded_cons_getter _ _ (Or.inr (Or.inr (Or.inr rfl))), List.foldl_cons]
      exact ih _ vs (statsInv_p99_call vs s h)

theorem statsInv_run (ops : List Op) : statsInv (recorded ops) (runOps ops) := by
  simpa using statsInv_run_aux ops PingStats.new [] statsInv_new

/-! ### C1: windowed min/max through the lazy cache -/

/-- C1: after any operation sequence with at least one recorded sample —
whatever pattern of cache invalidations and lazy recomputations happened
along the way — `min` and `max` return the true minimum and maximum of
the window of the most recent `min (k, CAPACITY)` recorded values. -/
theorem c1_window_min_max (ops : List Op) (h : recorded ops ≠ []) :
    (runOps ops).min_call.1 = some (lastWindow (recorded ops)).minimum ∧
    (runOps ops).max_call.1 = some (lastWindow (recorded ops)).maximum ∧
    (lastWindow (recorded ops)).length = min (recorded ops).length CAPACITY := by
  obtain ⟨hlen, hhead, hw, hmm, hpc⟩ := statsInv_run ops
  have hk : 0 < (recorded ops).length := List.length_pos.mpr h
  have h0 : ¬(runOps ops).len = 0 := by
    rw [hlen, CAPACITY_eq]
    omega
  refine ⟨?_, ?_, lastWindow_length _⟩
  · unfold PingStats.min_call
    rw [if_neg h0]
    dsimp only
    by_cases hv : (runOps ops).min_max_valid
    · rw [if_pos hv, (hmm hv).1, hw]
    · rw [if_neg hv, (recompute_min_max_running _).1, hw]
  · unfold PingStats.max_call
    rw [if_neg h0]
    dsimp only
    by_cases hv : (runOps ops).min_max_valid
    · rw [if_pos hv, (hmm hv).2, hw]
    · rw [if_neg hv, (recompute_min_max_running _).2, hw]

/-- Witness for C1 at a run recording 5 then 3. -/
theorem c1_witness :
    recorded [Op.record (some 5), Op.record (some 3)] ≠ [] ∧
    ((runOps [Op.record (some 5), Op.record (some 3)]).min_call.1 =
      some (lastWindow (recorded [Op.record (some 5), Op.record (some 3)])).minimum ∧
    (runOps [Op.record (some 5), Op.record (some 3)]).max_call.1 =
      some (lastWindow (recorded [Op.record (some 5), Op.record (some 3)])).maximum ∧
    (lastWindow (recorded [Op.record (some 5), Op.record (some 3)])).length =
      min (recorded [Op.record (some 5), Op.record (some 3)]).length CAPACITY) :=
  ⟨by decide, c1_window_min_max [Op.record (some 5), Op.record (some 3)] (by decide)⟩

/-! ### C8: the invalidation discipline of `add_sample` -/

/-- C8: recording `Some v` from a state with a valid min/max cache
invalidates that cache exactly when the buffer is full and the evicted
value sits at the cached min or max boundary; otherwise the cache stays
valid and the running min/max are updated in place with `v`.  The
percentile cache is invalidated unconditionally. -/
theorem c8_lazy_invalidation (ops : List Op) (v : ℚ)
    (hvalid : (runOps ops).min_max_valid = true) :
    ((runOps ops).add_sample (some v)).percentile_valid = false ∧
    (((runOps ops).add_sample (some v)).min_max_valid = false ↔
      (runOps ops).len = CAPACITY ∧
        (((runOps ops).buffer (bidx (runOps ops).head) : WithTop ℚ) =
            (runOps ops).running_min ∨
         ((runOps ops).buffer (bidx (runOps ops).head) : WithBot ℚ) =
            (runOps ops).running_max)) ∧
    (((runOps ops).add_sample (some v)).min_max_valid = true →
      ((runOps ops).add_sample (some v)).running_min =
        min (runOps ops).running_min (v : WithTop ℚ) ∧
      ((runOps ops).add_sample (some v)).running_max =
        max (runOps ops).running_max (v : WithBot ℚ)) := by
  obtain ⟨hlen, hhead, hw, hmm, hpc⟩ := statsInv_run ops
  obtain ⟨hrmin, hrmax⟩ := hmm hvalid
  have hflag : ((runOps ops).add_sample (some v)).min_max_valid =
      (if (runOps ops).len = CAPACITY ∧
          (((runOps ops).buffer (bidx (runOps ops).head) : WithTop ℚ) ≤
              (runOps ops).running_min ∨
            (runOps ops).running_max ≤
              ((runOps ops).buffer (bidx (runOps ops).head) : WithBot ℚ)) then
        false
      else (runOps ops).min_max_valid) := by
    rw [PingStats.add_sample_some]
  refine ⟨by rw [PingStats.add_sample_some], ?_, ?_⟩
  · rw [hflag]
    constructor
    · intro hfl
      have hcond : (runOps ops).len = CAPACITY ∧
          (((runOps ops).buffer (bidx (runOps ops).head) : WithTop ℚ) ≤
              (runOps ops).running_min ∨
            (runOps ops).running_max ≤
              ((runOps ops).buffer (bidx (runOps ops).head) : WithBot ℚ)) := by
        by_contra hc
        rw [if_neg hc, hvalid] at hfl
        exact absurd hfl (by decide)
      obtain ⟨hfull, hor⟩ := hcond
      have hmem : (runOps ops).buffer (bidx (runOps ops).head) ∈
          (runOps ops).windowList := by
        rw [windowList_full_cons _ hfull]
        exact List.mem_cons_self _ _
      have hle : (runOps ops).running_min ≤
          ((runOps ops).buffer (bidx (runOps ops).head) : WithTop ℚ) := by
        rw [hrmin]
        exact List.minimum_le_of_mem' hmem
      have hge : ((runOps ops).buffer (bidx (runOps ops).head) : WithBot ℚ) ≤
          (runOps ops).running_max := by
        rw [hrmax]
        exact List.le_maximum_of_mem' hmem
      refine ⟨hfull, ?_⟩
      rcases hor with hx | hx
      · exact Or.inl (le_antisymm hx hle)
      · exact Or.inr (le_antisymm hge hx)
    · rintro ⟨hfull, hor⟩
      rw [if_pos ⟨hfull, hor.imp le_of_eq (fun hx => le_of_eq hx.symm)⟩]
  · intro _
    exact ⟨by rw [PingStats.add_sample_some], by rw [PingStats.add_sample_some]⟩

/-- Witness for C8 at a single recorded sample followed by recording 2. -/
theorem c8_witness :
    (runOps [Op.record (some 5)]).min_max_valid = true ∧
    (((runOps [Op.record (some 5)]).add_sample (some 2)).percentile_valid = false ∧
    (((runOps [Op.record (some 5)]).add_sample (some 2)).min_max_valid = false ↔
      (runOps [Op.record (some 5)]).len = CAPACITY ∧
        (((runOps [Op.record (some 5)]).buffer
            (bidx (runOps [Op.record (some 5)]).head) : WithTop ℚ) =
            (runOps [Op.record (some 5)]).running_min ∨
         ((runOps [Op.record (some 5)]).buffer
            (bidx (runOps [Op.record (some 5)]).head) : WithBot ℚ) =
            (runOps [Op.record (some 5)]).running_max)) ∧
    (((runOps [Op.record (some 5)]).add_sample (some 2)).min_max_valid = true →
      ((runOps [Op.record (some 5)]).add_sample (some 2)).running_min =
        min (runOps [Op.record (some 5)]).running_min ((2 : ℚ) : WithTop ℚ) ∧
      ((runOps [Op.record (some 5)]).add_sample (some 2)).running_max =
        max (runOps [Op.record (some 5)]).running_max ((2 : ℚ) : WithBot ℚ))) :=
  ⟨by decide, c8_lazy_invalidation [Op.record (some 5)] 2 (by decide)⟩

/-! ### C2: percentile selection -/

theorem p95_p99_formula (ops : List Op) (hne : recorded ops ≠ []) :
    (runOps ops).p95_call.1 =
      some ((List.insertionSort (· ≤ ·) (lastWindow (recorded ops))).getD
        (percentile_index (lastWindow (recorded ops)).length (95 / 100)) 0) ∧
    (runOps ops).p99_call.1 =
      some ((List.insertionSort (· ≤ ·) (lastWindow (recorded ops))).getD
        (percentile_index (lastWindow (recorded ops)).length (99 / 100)) 0) := by
  obtain ⟨hlen, hhead, hw, hmm, hpc⟩ := statsInv_run ops
  have hk : 0 < (recorded ops).length := List.length_pos.mpr hne
  have h0 : ¬(runOps ops).len = 0 := by
    rw [hlen, CAPACITY_eq]
    omega
  have hlenW : (runOps ops).len = (lastWindow (recorded ops)).length := by
    rw [lastWindow_length]
    exact hlen
  constructor
  · unfold PingStats.p95_call
    rw [if_neg h0]
    dsimp only
    by_cases hv : (runOps ops).percentile_valid
    · rw [if_pos hv, (hpc hv).1, hw, hlenW]
    · rw [if_neg hv, (recompute_percentiles_cache _ h0).1, hw, hlenW]
  · unfold PingStats.p99_call
    rw [if_neg h0]
    dsimp only
    by_cases hv : (runOps ops).percentile_valid
    · rw [if_pos hv, (hpc hv).2, hw, hlenW]
    · rw [if_neg hv, (recompute_percentiles_cache _ h0).2, hw, hlenW]

theorem p95_call_none_iff (ops : List Op) :
    (runOps ops).p95_call.1 = none ↔ recorded ops = [] := by
  obtain ⟨hlen, _, _, _, _⟩ := statsInv_run ops
  have hlen0 : (runOps ops).len = 0 ↔ recorded ops = [] := by
    rw [hlen, CAPACITY_eq, ← List.length_eq_zero]
    omega
  by_cases h0 : (runOps ops).len = 0
  · simp [PingStats.p95_call, h0, hlen0.mp h0]
  · rw [← hlen0]
    unfold PingStats.p95_call
    rw [if_neg h0]
    simp [h0]

theorem p99_call_none_iff (ops : List Op) :
    (runOps ops).p99_call.1 = none ↔ recorded ops = [] := by
  obtain ⟨hlen, _, _, _, _⟩ := statsInv_run ops
  have hlen0 : (runOps ops).len = 0 ↔ recorded ops = [] := by
    rw [hlen, CAPACITY_eq, ← List.length_eq_zero]
    omega
  by_cases h0 : (runOps ops).len = 0
  · simp [PingStats.p99_call, h0, hlen0.mp h0]
  · rw [← hlen0]
    unfold PingStats.p99_call
    rw [if_neg h0]
    simp [h0]

theorem percentile_index_100_95 : percentile_index 100 (95 / 100) = 94 := by
  unfold percentile_index
  rw [if_neg (by norm_num : ¬(100 : ℕ) = 0)]
  dsimp only
  rw [show ((100 : ℕ) : ℚ) * (95 / 100) = ((95 : ℤ) : ℚ) from by norm_num,
    Int.ceil_intCast]
  decide

theorem percentile_index_100_99 : percentile_index 100 (99 / 100) = 98 := by
  unfold percentile_index
  rw [if_neg (by norm_num : ¬(100 : ℕ) = 0)]
  dsimp only
  rw [show ((100 : ℕ) : ℚ) * (99 / 100) = ((99 : ℤ) : ℚ) from by norm_num,
    Int.ceil_intCast]
  decide

theorem recorded_range100 :
    recorded ((List.range 100).map (fun (i : ℕ) => Op.record (some ((i : ℚ) + 1)))) =
      (List.range 100).map (fun (i : ℕ) => ((i : ℚ) + 1)) := by
  rw [recorded, List.filterMap_map]
  rw [show ((fun o => match o with
      | Op.record (some v) => some v
      | _ => none) ∘ (fun i : ℕ => Op.record (some ((i : ℚ) + 1)))) =
    (fun i : ℕ => some ((i : ℚ) + 1)) from rfl]
  rw [show (fun i : ℕ => some ((i : ℚ) + 1)) =
    (some ∘ (fun i : ℕ => (i : ℚ) + 1)) from rfl]
  rw [List.filterMap_eq_map]

theorem sorted_range100 :
    List.Sorted (· ≤ ·) ((List.range 100).map (fun (i : ℕ) => ((i : ℚ) + 1))) := by
  show List.Pairwise _ _
  refine (List.pairwise_map).mpr ?_
  refine List.Pairwise.imp ?_ (List.sorted_lt_range 100)
  intro a b hab
  have hq : (a : ℚ) ≤ (b : ℚ) := by exact_mod_cast hab.le
  linarith

theorem lastWindow_range100 :
    lastWindow ((List.range 100).map (fun (i : ℕ) => ((i : ℚ) + 1))) =
      (List.range 100).map (fun (i : ℕ) => ((i : ℚ) + 1)) := by
  unfold lastWindow
  rw [show ((List.range 100).map (fun (i : ℕ) => ((i : ℚ) + 1))).length - CAPACITY = 0 from by
    simp [CAPACITY_eq]]
  exact List.drop_zero _

theorem getD_range100 (j : ℕ) (hj : j < 100) :
    ((List.range 100).map (fun (i : ℕ) => ((i : ℚ) + 1))).getD j 0 = (j : ℚ) + 1 := by
  have hlen : j < ((List.range 100).map (fun (i : ℕ) => ((i : ℚ) + 1))).length := by
    simpa using hj
  rw [List.getD_eq_getElem _ _ hlen, List.getElem_map, List.getElem_range]

/-- C2: `p95`/`p99` return `None` exactly on the empty buffer, and
otherwise the element of the ascending-sorted window at the 0-indexed
slot computed by `percentile_index` from the 1-indexed rank
`ceil(len * p)`; for the window holding the 100 values 1..100, `p95`
returns 95 (the 95th smallest) and `p99` returns 99 (the 99th
smallest). -/
theorem c2_percentile_selection (ops : List Op) :
    ((runOps ops).p95_call.1 = none ↔ recorded ops = []) ∧
    ((runOps ops).p99_call.1 = none ↔ recorded ops = []) ∧
    (recorded ops ≠ [] →
      (runOps ops).p95_call.1 =
        some ((List.insertionSort (· ≤ ·) (lastWindow (recorded ops))).getD
          (percentile_index (lastWindow (recorded ops)).length (95 / 100)) 0) ∧
      (runOps ops).p99_call.1 =
        some ((List.insertionSort (· ≤ ·) (lastWindow (recorded ops))).getD
          (percentile_index (lastWindow (recorded ops)).length (99 / 100)) 0) ∧
      List.Sorted (· ≤ ·) (List.insertionSort (· ≤ ·) (lastWindow (recorded ops))) ∧
      (List.insertionSort (· ≤ ·) (lastWindow (recorded ops))).Perm
        (lastWindow (recorded ops))) ∧
    ((runOps ((List.range 100).map (fun (i : ℕ) => Op.record (some ((i : ℚ) + 1))))).p95_call.1 =
      some 95 ∧
     (runOps ((List.range 100).map (fun (i : ℕ) => Op.record (some ((i : ℚ) + 1))))).p99_call.1 =
      some 99) := by
  have hne100 : recorded ((List.range 100).map (fun (i : ℕ) => Op.record (some ((i : ℚ) + 1)))) ≠
      [] := by
    rw [recorded_range100]
    intro hnil
    have := congrArg List.length hnil
    simp at this
  have hform100 := p95_p99_formula _ hne100
  rw [recorded_range100, lastWindow_range100,
    (sorted_range100).insertionSort_eq,
    show ((List.range 100).map (fun (i : ℕ) => ((i : ℚ) + 1))).length = 100 from by simp,
    percentile_index_100_95, percentile_index_100_99,
    getD_range100 94 (by norm_num), getD_range100 98 (by norm_num)] at hform100
  refine ⟨p95_call_none_iff ops, p99_call_none_iff ops, fun hne => ?_, ?_, ?_⟩
  · exact ⟨(p95_p99_formula ops hne).1, (p95_p99_formula ops hne).2,
      List.sorted_insertionSort _ _, List.perm_insertionSort _ _⟩
  · rw [hform100.1]
    norm_num
  · rw [hform100.2]
    norm_num

/-- Witness for C2 at a run recording 5 then 3. -/
theorem c2_witness :
    recorded [Op.record (some 5), Op.record (some 3)] ≠ [] ∧
    ((runOps [Op.record (some 5), Op.record (some 3)]).p95_call.1 =
      some ((List.insertionSort (· ≤ ·)
        (lastWindow (recorded [Op.record (some 5), Op.record (some 3)]))).getD
          (percentile_index
            (lastWindow (recorded [Op.record (some 5), Op.record (some 3)])).length
            (95 / 100)) 0) ∧
    (runOps [Op.record (some 5), Op.record (some 3)]).p99_call.1 =
      some ((List.insertionSort (· ≤ ·)
        (lastWindow (recorded [Op.record (some 5), Op.record (some 3)]))).getD
          (percentile_index
            (lastWindow (recorded [Op.record (some 5), Op.record (some 3)])).length
            (99 / 100)) 0) ∧
    List.Sorted (· ≤ ·) (List.insertionSort (· ≤ ·)
      (lastWindow (recorded [Op.record (some 5), Op.record (some 3)]))) ∧
    (List.insertionSort (· ≤ ·)
      (lastWindow (recorded [Op.record (some 5), Op.record (some 3)]))).Perm
        (lastWindow (recorded [Op.record (some 5), Op.record (some 3)]))) :=
  ⟨by decide,
    (c2_percentile_selection [Op.record (some 5), Op.record (some 3)]).2.2.1 (by decide)⟩

end Pong
